import Mathlib

/-!
Verification of the `stanford-ner` Node.js wrapper (`src/NER.ts`).

The development shallowly embeds the two algorithmic components of the
repository:

* `NER.parse` — the tagged-output parser turning one `word/TAG` line into an
  ordered entity map (`parseL` / `parse` below);
* `NER.getTokenCount` in tagged mode — the token-budget counter
  (`getTokenCountTagged` below);
* the request sequencer formed by `NER.getEntities` / `NER.extract` and the
  stdout listener — modelled as an explicit state machine (`SeqState`,
  `submitStep`, `onData`, `Reachable`).

JavaScript strings are modelled as `List Char`; JavaScript `Map` (which
preserves insertion order, updates values in place, and appends new keys at
the end) is modelled as an association list.  `undefined` string variables
(`prevEntity` before the first token) are modelled with `Option String`.
-/


/-- Characters matched by the JavaScript regex class `\s` (ASCII range).
`parse` tokenizes its input with `parsed.split(/\s/gmi)`. -/
def jsWs (c : Char) : Bool :=
  c = ' ' || c = '\t' || c = '\n' || c = '\r' || c = '\x0b' || c = '\x0c'

/-- JavaScript `String.prototype.split` with a single-character separator
class: fields between separator occurrences, keeping empty fields, and one
(possibly empty) field for the empty string. -/
def splitChars (p : Char → Bool) : List Char → List (List Char)
  | [] => [[]]
  | c :: cs =>
    match splitChars p cs with
    | [] => if p c then [[], []] else [[c]]
    | f :: rest => if p c then [] :: f :: rest else (c :: f) :: rest

/-- JavaScript `String.prototype.trim` (ASCII whitespace; JS also trims some
Unicode space characters, which do not occur in this development). -/
def trimL (cs : List Char) : List Char :=
  ((cs.dropWhile jsWs).reverse.dropWhile jsWs).reverse

/-- One `surface/TAG` pair extracted by `parse` (`{w: parts[1], t: parts[2]}`). -/
structure Token where
  w : String
  t : String
deriving DecidableEq, Repr

/-- The character class `[A-Z]` of the tag pattern. -/
def isUpperAZ (c : Char) : Bool := 'A' ≤ c && c ≤ 'Z'

/-- Helper for the regex `(.+)/([A-Z]+)` run by `exec`: find the rightmost
slash that is followed by at least one uppercase letter (greedy backtracking
of `.+`), returning the characters before the slash and the maximal `[A-Z]+`
run after it. -/
def lastSlashSplit : List Char → Option (List Char × List Char)
  | [] => none
  | c :: cs =>
    match lastSlashSplit cs with
    | some (pre, tag) => some (c :: pre, tag)
    | none =>
      if c = '/' then
        let tag := cs.takeWhile isUpperAZ
        if tag ≠ [] then some ([], tag) else none
      else none

/-- `new RegExp('(.+)/([A-Z]+)','g').exec(token)`: the match (if any) starts
at position 0 (tokens contain no newline, so `.` matches every earlier
character), `(.+)` is greedy and must be nonempty, and `exec` does not
require the match to reach the end of the token. -/
def execTok (token : List Char) : Option Token :=
  match lastSlashSplit token with
  | some (pre, tag) => if pre ≠ [] then some ⟨String.mk pre, String.mk tag⟩ else none
  | none => none

/-- `_.map` over the whitespace-split tokens followed by `_.compact`:
the matched `(surface, tag)` pairs of a line, in order. -/
def tokensOf (cs : List Char) : List Token :=
  (splitChars jsWs cs).filterMap execTok

/-- Ordered mapping from entity category (with `Option` for a possible
JavaScript `undefined` key) to the recorded mention strings. -/
abbrev EntityMap := List (Option String × List String)

/-- `Map.prototype.get`: the value stored at a key, if present. -/
def mapGet : EntityMap → Option String → Option (List String)
  | [], _ => none
  | p :: rest, k => if p.1 = k then some p.2 else mapGet rest k

/-- `Map.prototype.set`: replace the value in place when the key exists,
otherwise append the new key at the end (insertion order preserved). -/
def mapSet : EntityMap → Option String → List String → EntityMap
  | [], k, v => [(k, v)]
  | p :: rest, k, v => if p.1 = k then (k, v) :: rest else p :: mapSet rest k v

/-- `entityBuffer.join(' ')`. -/
def joinSp : List String → String
  | [] => ""
  | [s] => s
  | s :: rest => s ++ " " ++ joinSp rest

/-- The mid-line flush of `parse`:
`if (!entities.get(prevEntity)) entities.set(prevEntity, []);`
`entities.get(prevEntity).push(x)` — ensure the key exists, then append the
joined mention to its list (an in-place array push keeps the key position). -/
def saveEntity (m : EntityMap) (k : Option String) (x : String) : EntityMap :=
  let m1 := if mapGet m k = none then mapSet m k [] else m
  mapSet m1 k ((mapGet m1 k).getD [] ++ [x])

/-- The loop-local state of `parse`: the accumulated `entities` map, the
tag of the previous token (`undefined` before the first token), and the open
mention buffer. -/
structure ParseState where
  entities : EntityMap
  prevEntity : Option String
  entityBuffer : List String
deriving DecidableEq, Repr

/-- The `for (let i = 0; i < l; i++)` scan of `parse` over the tagged
tokens. -/
def parseLoop : List Token → ParseState → ParseState
  | [], st => st
  | tok :: rest, st =>
    let st1 :=
      if tok.t ≠ "O" then
        if some tok.t ≠ st.prevEntity then
          -- new tag: flush any open buffer under the previous tag, then start
          let st2 :=
            if st.entityBuffer ≠ [] then
              { st with
                entities := saveEntity st.entities st.prevEntity (joinSp st.entityBuffer),
                entityBuffer := [] }
            else st
          { st2 with entityBuffer := st2.entityBuffer ++ [tok.w] }
        else
          { st with entityBuffer := st.entityBuffer ++ [tok.w] }
      else
        -- sentinel tag "O": flush any open buffer under the previous tag
        if st.entityBuffer ≠ [] then
          { st with
            entities := saveEntity st.entities st.prevEntity (joinSp st.entityBuffer),
            entityBuffer := [] }
        else st
    parseLoop rest { st1 with prevEntity := some tok.t }

/-- `NER.parse` on a line of characters.  Note the final flush is
`entities.set(prevEntity, entityBuffer)` in the source: it stores the raw
buffer (surfaces not joined) and overwrites any list already recorded for
that key, unlike the two mid-line flushes. -/
def parseL (cs : List Char) : EntityMap :=
  let st := parseLoop (tokensOf cs) ⟨[], none, []⟩
  if st.entityBuffer ≠ [] then mapSet st.entities st.prevEntity st.entityBuffer
  else st.entities

/-- `NER.parse` on a string. -/
def parse (line : String) : EntityMap := parseL line.toList

/-! ## Token counting (`NER.getTokenCount` with `isTagged = true`)

The untagged branch delegates to `natural.TreebankWordTokenizer`, an external
collaborator; only the tagged branch is part of the core and is embedded
here.  The tagged branch splits on single spaces (`text.split(" ")`), undoes
the worker's bracket/quote escaping on the first `/`-component of each token,
and counts the tokens whose (re-split, trimmed) value is longer than one
character. -/

/-- `val.split("/")[0]`: the surface part of a tagged token (split on a
single-character separator always yields at least one field). -/
def surfaceOf (val : List Char) : List Char :=
  (splitChars (· = '/') val).headD []

/-- The escaping map of the tagged branch: `val.split("/")[0]` with the
worker's quote and bracket escapes replaced by the single character they
stand for. -/
def unescapeTok (val : List Char) : List Char :=
  if surfaceOf val = "``".toList then "'".toList
  else if surfaceOf val = "''".toList then "'".toList
  else if surfaceOf val = "-LRB-".toList then "(".toList
  else if surfaceOf val = "-RRB-".toList then ")".toList
  else if surfaceOf val = "-LSB-".toList then "[".toList
  else if surfaceOf val = "-RSB-".toList then "]".toList
  else if surfaceOf val = "-LCB-".toList then "\x7b".toList
  else if surfaceOf val = "-RCB-".toList then "\x7d".toList
  else surfaceOf val

/-- `NER.getTokenCount(text, true)`: split on `" "`, map through
`unescapeTok`, and keep the tokens whose first `/`-component, trimmed, has
length greater than one. -/
def getTokenCountTagged (text : List Char) : Nat :=
  let textTokens := (splitChars (· = ' ') text).map unescapeTok
  (textTokens.filter (fun v => (trimL (surfaceOf v)).length > 1)).length

/-! ## The request sequencer (`NER.getEntities` / `NER.extract`)

The sequencer is single-threaded and event-driven: the only state
transitions happen when `getEntities` is invoked (a submit event) and when
the worker's stdout emits a data chunk (a chunk event).  Requests are
identified by a natural number standing for the `uuid.v4()` token; each
request carries its token budget `numTokens = getTokenCount(text)`, a value
produced by the external `TreebankWordTokenizer` collaborator and therefore
abstracted as a parameter of the submit event.

Besides the instance fields of the source (`isBusy`, `queue`, the attached
stdout listener with its closure variables `numTokens` and `result`), the
state carries ghost history fields recording, in order: the ids submitted to
`getEntities`, the ids written to the worker's stdin, the `resolve` calls
with their values, and the (request, parsed line) attribution of every
processed output line.  The ghost fields are write-only logs and do not
influence the transitions. -/

/-- The stdout `data` listener attached by `extract`, with its closure
variables: the id whose `resolve` it captured, the remaining token budget,
and the accumulated per-line parses. -/
structure Listener where
  req : Nat
  numTokens : Int
  result : List EntityMap
deriving DecidableEq, Repr

/-- The sequencer state: the mutable instance fields of `NER` plus ghost
history logs. -/
structure SeqState where
  isBusy : Bool
  queue : List (Nat × Nat)
  listener : Option Listener
  -- ghost history fields
  submitted : List Nat
  written : List Nat
  resolved : List (Nat × List EntityMap)
  attributed : List (Nat × EntityMap)
deriving DecidableEq, Repr

/-- The initial state of a freshly constructed `NER` instance. -/
def initSt : SeqState :=
  { isBusy := false, queue := [], listener := none,
    submitted := [], written := [], resolved := [], attributed := [] }

/-- `getEntities(text)`: if busy, push the request token onto the queue and
register its handler on `finishedEmitter`; otherwise set the busy flag and
run `extract`, which computes the budget, attaches the stdout listener and
writes the trimmed, newline-terminated text to the worker's stdin. -/
def submitStep (st : SeqState) (id : Nat) (budget : Nat) : SeqState :=
  if st.isBusy then
    { st with queue := st.queue ++ [(id, budget)], submitted := st.submitted ++ [id] }
  else
    { st with isBusy := true,
              listener := some ⟨id, (budget : Int), []⟩,
              submitted := st.submitted ++ [id],
              written := st.written ++ [id] }

/-- The tail of the completion block:
`if (this.queue.length) { const nextEvent = this.queue.shift();`
`this.finishedEmitter.emit(nextEvent); }` — the emitted handler sets the
busy flag and runs `extract` for the queued request. -/
def dispatchNext (st : SeqState) : SeqState :=
  match st.queue with
  | [] => st
  | (id, budget) :: rest =>
    { st with queue := rest, isBusy := true,
              listener := some ⟨id, (budget : Int), []⟩,
              written := st.written ++ [id] }

/-- The completion block of the stdout listener:
`removeAllListeners`, clear `isBusy`, `resolve(result)`, then dispatch the
next queued request if any. -/
def completeSt (st : SeqState) (req : Nat) (res : List EntityMap) : SeqState :=
  dispatchNext
    { st with listener := none, isBusy := false,
              resolved := st.resolved ++ [(req, res)] }

/-- The running state of one execution of the stdout listener closure:
the instance state plus the closure variables (`numTokens`, `result`) and
whether this closure has already executed its completion block
(`removeAllListeners` cannot stop the `forEach` that is already running). -/
structure ChunkCtx where
  st : SeqState
  reqId : Nat
  numTokens : Int
  result : List EntityMap
  detached : Bool
deriving DecidableEq, Repr

/-- The body of `sentences.forEach((sentence) => ...)` in `extract`:
subtract the line's tagged token count, parse and accumulate the line, and
when the budget is exhausted run the completion block.  The body keeps
executing for the remaining lines of the chunk even after completion. -/
def chunkLine (ctx : ChunkCtx) (sentence : List Char) : ChunkCtx :=
  let numTokens := ctx.numTokens - (getTokenCountTagged sentence : Int)
  let parsed := parseL sentence
  let result := ctx.result ++ [parsed]
  let st0 := { ctx.st with attributed := ctx.st.attributed ++ [(ctx.reqId, parsed)] }
  if numTokens ≤ 0 then
    { st := completeSt st0 ctx.reqId result,
      reqId := ctx.reqId, numTokens := numTokens, result := result, detached := true }
  else
    { st := st0, reqId := ctx.reqId, numTokens := numTokens, result := result,
      detached := ctx.detached }

/-- `data.trim().split("\n")`: the sentences a stdout chunk is split into. -/
def linesOf (data : List Char) : List (List Char) :=
  splitChars (· = '\n') (trimL data)

/-- A stdout `data` event: if a listener is attached, run its `forEach` over
the chunk's lines; if the closure did not complete, its updated closure
variables persist in the still-attached listener.  Without a listener the
chunk is dropped. -/
def onData (st : SeqState) (data : List Char) : SeqState :=
  match st.listener with
  | none => st
  | some L =>
    let ctx := (linesOf data).foldl chunkLine
      { st := st, reqId := L.req, numTokens := L.numTokens, result := L.result,
        detached := false }
    if ctx.detached then ctx.st
    else { ctx.st with listener := some ⟨ctx.reqId, ctx.numTokens, ctx.result⟩ }

/-- An event of the sequencer's event loop. -/
inductive SeqEvent where
  | submit (id : Nat) (budget : Nat)
  | chunk (data : List Char)
deriving DecidableEq, Repr

/-- One step of the event loop. -/
def seqStep (st : SeqState) : SeqEvent → SeqState
  | .submit id budget => submitStep st id budget
  | .chunk data => onData st data

/-- Run a trace of events from the initial state. -/
def runTrace (events : List SeqEvent) : SeqState :=
  events.foldl seqStep initSt

/-- Sum of the tagged token counts of a list of output lines. -/
def sumCounts (ls : List (List Char)) : Int :=
  (ls.map (fun s => (getTokenCountTagged s : Int))).sum

/-- The worker model of the specification: output lines are emitted in FIFO
order relative to input and the cumulative token count of the in-flight
request's output equals its budget, so the budget can be exhausted only by
the last line of a chunk.  A chunk is conformant when no proper prefix of
its lines already exhausts the remaining budget. -/
def ChunkOk (budget : Int) (sentences : List (List Char)) : Prop :=
  ∀ i, i + 1 < sentences.length → sumCounts (sentences.take (i + 1)) < budget

/-- Worker-conformant reachability: states produced from the initial state by
submit events with fresh request tokens (`uuid.v4()` collisions excluded) and
by chunk events satisfying the worker model. -/
inductive Reachable : SeqState → Prop
  | init : Reachable initSt
  | submit {st : SeqState} (id budget : Nat) :
      Reachable st → id ∉ st.submitted → Reachable (submitStep st id budget)
  | chunk {st : SeqState} (data : List Char) :
      Reachable st →
      (∀ L, st.listener = some L → ChunkOk L.numTokens (linesOf data)) →
      Reachable (onData st data)

/-! ### The sequencer invariant -/

/-- Ids of the resolve calls recorded so far, in order. -/
def resolvedIds (st : SeqState) : List Nat := st.resolved.map Prod.fst

/-- Id of the in-flight request (the attached listener's), if any. -/
def currentIds (st : SeqState) : List Nat := (st.listener.map Listener.req).toList

/-- Ids waiting in the FIFO queue, in order. -/
def queueIds (st : SeqState) : List Nat := st.queue.map Prod.fst

/-- The line attribution implied by the resolve log: each resolved request's
lines, tagged with its id, in resolution order. -/
def resolvedBlocks (st : SeqState) : List (Nat × EntityMap) :=
  (st.resolved.map (fun p => p.2.map (fun e => (p.1, e)))).flatten

/-- The line attribution of the in-flight request so far. -/
def currentBlock (st : SeqState) : List (Nat × EntityMap) :=
  (st.listener.map (fun L => L.result.map (fun e => (L.req, e)))).getD []

/-- The inductive invariant of the sequencer under the worker model:
the busy flag tracks listener attachment, the stdin writes are exactly the
resolved requests followed by the one in flight, submissions are the writes
followed by the queued requests (all in order), every processed line is
attributed to exactly one request — grouped by request in resolution
order — and the queue is empty whenever no request is in flight. -/
def SeqInv (st : SeqState) : Prop :=
  st.isBusy = st.listener.isSome ∧
  st.written = resolvedIds st ++ currentIds st ∧
  st.submitted = st.written ++ queueIds st ∧
  st.attributed = resolvedBlocks st ++ currentBlock st ∧
  (st.listener = none → st.queue = [])

/-- `parse` as invoked on the `NER` instance: the source function reads and
writes none of the mutable instance fields (`isBusy`, `queue`, the attached
listener) — `tokenized`, `tagged`, `entities`, `prevEntity` and
`entityBuffer` are all local variables of the call — so in the embedding a
call returns the parse of its argument and leaves the instance state
untouched. -/
def parseCall (st : SeqState) (line : String) : SeqState × EntityMap :=
  (st, parse line)

/-! ## C7: token counting undoes escaping -/

/-- The count as the claim words it: a token contributes one exactly when
its unescaped surface is longer than one character (no whitespace
trimming). -/
def claimedTaggedCount (text : List Char) : Nat :=
  ((splitChars (· = ' ') text).filter
    (fun tok => (unescapeTok tok).length > 1)).length

/-- The count with the surface additionally trimmed of whitespace before
measuring, matching the `.trim()` in the filter of `getTokenCount`. -/
def trimmedTaggedCount (text : List Char) : Nat :=
  ((splitChars (· = ' ') text).filter
    (fun tok => (trimL (unescapeTok tok)).length > 1)).length

/-! ## C8: non-matching tokens are silently discarded -/

/-- Rebuild a line from tokens, separated by single spaces. -/
def joinTokens : List (List Char) → List Char
  | [] => []
  | [t] => t
  | t :: ts => t ++ ' ' :: joinTokens ts

/-- The line with every whitespace-separated token that does not match
`(.+)/([A-Z]+)` removed. -/
def removeNonMatching (line : String) : String :=
  String.mk (joinTokens
    ((splitChars jsWs line.toList).filter (fun t => (execTok t).isSome)))

/-! ## C10: result keys are tags of non-"O" tokens -/

/-- The keys of an entity map, in insertion order. -/
def mapKeys (m : EntityMap) : List (Option String) := m.map Prod.fst

/-- All keys of the map are non-"O" tags drawn from `tags`. -/
def KeysOk (tags : List String) (m : EntityMap) : Prop :=
  ∀ k ∈ mapKeys m, ∃ t, k = some t ∧ t ≠ "O" ∧ t ∈ tags

/-- When the mention buffer is open, the previous tag is a defined,
non-"O" tag from `tags` (the buffer is only ever filled at such tokens). -/
def BufOk (tags : List String) (st : ParseState) : Prop :=
  st.entityBuffer ≠ [] → ∃ t, st.prevEntity = some t ∧ t ≠ "O" ∧ t ∈ tags

/-! ## Theorems -/

example :
    parse "Barack/PERSON Obama/PERSON visited/O Paris/LOCATION" =
      [(some "PERSON", ["Barack Obama"]), (some "LOCATION", ["Paris"])] := by decide

example :
    parse "New/ORGANIZATION York/ORGANIZATION Fed/ORGANIZATION" =
      [(some "ORGANIZATION", ["New", "York", "Fed"])] := by decide

example :
    parse "Paris/LOCATION visited/O Rome/LOCATION" =
      [(some "LOCATION", ["Rome"])] := by decide

example : getTokenCountTagged "Spain/LOCATION ./O".toList = 1 := by decide

example : getTokenCountTagged "-LRB-/O Spain/LOCATION -RRB-/O".toList = 1 := by decide

example : getTokenCountTagged "aa".toList = 1 := by decide

example :
    (runTrace [.submit 0 1, .submit 1 1, .submit 2 1, .chunk "aa\nbb".toList]).resolved.map
      Prod.fst = [0, 0] := by decide

example :
    (runTrace [.submit 0 1, .submit 1 1, .submit 2 1, .chunk "aa\nbb".toList]).written
      = [0, 1, 2] := by decide

/-! ### Characterization of chunk processing under the worker model -/

theorem sumCounts_nil : sumCounts [] = 0 := by
  simp [sumCounts]

theorem sumCounts_cons (s : List Char) (ls : List (List Char)) :
    sumCounts (s :: ls) = (getTokenCountTagged s : Int) + sumCounts ls := by
  simp [sumCounts]

theorem chunkOk_head {nt : Int} {s : List Char} {rest : List (List Char)}
    (h : ChunkOk nt (s :: rest)) (hne : rest ≠ []) :
    (getTokenCountTagged s : Int) < nt := by
  have h0 := h 0 (by
    have : 0 < rest.length := List.length_pos.mpr hne
    simpa using this)
  simpa [sumCounts] using h0

theorem chunkOk_cons {nt : Int} {s : List Char} {rest : List (List Char)}
    (h : ChunkOk nt (s :: rest)) :
    ChunkOk (nt - (getTokenCountTagged s : Int)) rest := by
  intro i hi
  have h2 := h (i + 1) (by simpa using Nat.succ_lt_succ hi)
  rw [List.take_succ_cons, sumCounts_cons] at h2
  omega

/-- Folding the listener body over a conformant, nonempty list of lines:
every line is parsed and attributed to the in-flight request, the budget
decreases by the total count, and the completion block runs exactly when the
final budget is `≤ 0` (and then exactly once, at the last line). -/
theorem chunkFold (sentences : List (List Char)) (st : SeqState) (req : Nat)
    (nt : Int) (res : List EntityMap)
    (hne : sentences ≠ [])
    (hOk : ChunkOk nt sentences) :
    sentences.foldl chunkLine ⟨st, req, nt, res, false⟩ =
      (if nt - sumCounts sentences ≤ 0 then
        ⟨completeSt
            { st with attributed := st.attributed ++ sentences.map (fun s => (req, parseL s)) }
            req (res ++ sentences.map parseL),
          req, nt - sumCounts sentences, res ++ sentences.map parseL, true⟩
      else
        ⟨{ st with attributed := st.attributed ++ sentences.map (fun s => (req, parseL s)) },
          req, nt - sumCounts sentences, res ++ sentences.map parseL, false⟩) := by
  induction sentences generalizing st nt res with
  | nil => exact absurd rfl hne
  | cons s rest ih =>
    rcases eq_or_ne rest [] with hrest | hrest
    · subst hrest
      simp only [List.foldl_cons, List.foldl_nil, chunkLine, sumCounts_cons, sumCounts_nil,
        List.map_cons, List.map_nil, add_zero]
    · have hlt : (getTokenCountTagged s : Int) < nt := chunkOk_head hOk hrest
      have hstep :
          chunkLine ⟨st, req, nt, res, false⟩ s =
            ⟨{ st with attributed := st.attributed ++ [(req, parseL s)] }, req,
              nt - (getTokenCountTagged s : Int), res ++ [parseL s], false⟩ := by
        simp only [chunkLine]
        rw [if_neg (by omega)]
      rw [List.foldl_cons, hstep,
        ih { st with attributed := st.attributed ++ [(req, parseL s)] }
          (nt - (getTokenCountTagged s : Int)) (res ++ [parseL s]) hrest
          (chunkOk_cons hOk)]
      simp only [sumCounts_cons, List.map_cons, List.append_assoc, List.singleton_append,
        sub_sub]

theorem splitChars_ne_nil (p : Char → Bool) (cs : List Char) : splitChars p cs ≠ [] := by
  induction cs with
  | nil => simp [splitChars]
  | cons c cs ih =>
    rcases hs : splitChars p cs with _ | ⟨f, rest⟩
    · exact absurd hs ih
    · simp only [splitChars, hs]
      split <;> simp

theorem linesOf_ne_nil (data : List Char) : linesOf data ≠ [] :=
  splitChars_ne_nil _ _

/-- A conformant chunk whose total count exhausts the remaining budget
completes the in-flight request: the completion block runs exactly once. -/
theorem onData_complete (st : SeqState) (L : Listener) (data : List Char)
    (hL : st.listener = some L)
    (hOk : ChunkOk L.numTokens (linesOf data))
    (hle : L.numTokens - sumCounts (linesOf data) ≤ 0) :
    onData st data =
      completeSt
        { st with attributed :=
            st.attributed ++ (linesOf data).map (fun s => (L.req, parseL s)) }
        L.req (L.result ++ (linesOf data).map parseL) := by
  unfold onData
  rw [hL]
  simp only
  rw [chunkFold (linesOf data) st L.req L.numTokens L.result (linesOf_ne_nil data) hOk,
    if_pos hle]
  rfl

/-- A conformant chunk whose total count stays below the remaining budget
leaves the request in flight, with the budget and accumulated results
updated in the attached listener. -/
theorem onData_incomplete (st : SeqState) (L : Listener) (data : List Char)
    (hL : st.listener = some L)
    (hOk : ChunkOk L.numTokens (linesOf data))
    (hgt : ¬ L.numTokens - sumCounts (linesOf data) ≤ 0) :
    onData st data =
      { st with
          attributed :=
            st.attributed ++ (linesOf data).map (fun s => (L.req, parseL s)),
          listener := some ⟨L.req, L.numTokens - sumCounts (linesOf data),
            L.result ++ (linesOf data).map parseL⟩ } := by
  unfold onData
  rw [hL]
  simp only
  rw [chunkFold (linesOf data) st L.req L.numTokens L.result (linesOf_ne_nil data) hOk,
    if_neg hgt]
  rfl

theorem seqInv_init : SeqInv initSt := by
  refine ⟨rfl, rfl, rfl, rfl, fun _ => rfl⟩

theorem seqInv_submit (st : SeqState) (id budget : Nat) (h : SeqInv st) :
    SeqInv (submitStep st id budget) := by
  obtain ⟨h1, h2, h3, h4, h5⟩ := h
  unfold submitStep
  by_cases hb : st.isBusy = true
  · rw [if_pos hb]
    have hsome : st.listener.isSome = true := h1 ▸ hb
    refine ⟨h1, h2, ?_, h4, ?_⟩
    · rw [h3]
      simp [queueIds]
    · intro hnone
      rw [hnone] at hsome
      simp at hsome
  · rw [if_neg hb]
    have hnone : st.listener = none := by
      rcases hq : st.listener with _ | L
      · rfl
      · rw [hq] at h1
        simp only [Option.isSome_some] at h1
        exact absurd h1 hb
    have hqnil : st.queue = [] := h5 hnone
    have hw : st.written = List.map Prod.fst st.resolved := by
      rw [h2]
      simp [currentIds, hnone, resolvedIds]
    have hs : st.submitted = st.written := by
      rw [h3]
      simp [queueIds, hqnil]
    have ha : st.attributed =
        (st.resolved.map (fun p => p.2.map (fun e => (p.1, e)))).flatten := by
      rw [h4]
      simp [currentBlock, hnone, resolvedBlocks]
    refine ⟨by simp, ?_, ?_, ?_, by simp⟩
    · simp [resolvedIds, currentIds, hw]
    · simp [queueIds, hqnil, hs, hw]
    · simp [resolvedBlocks, currentBlock, ha]

theorem seqInv_chunk (st : SeqState) (data : List Char) (h : SeqInv st)
    (hOk : ∀ L, st.listener = some L → ChunkOk L.numTokens (linesOf data)) :
    SeqInv (onData st data) := by
  obtain ⟨h1, h2, h3, h4, h5⟩ := h
  rcases hL : st.listener with _ | L
  · have hid : onData st data = st := by
      unfold onData
      rw [hL]
    rw [hid]
    exact ⟨h1, h2, h3, h4, h5⟩
  · have hw : st.written = List.map Prod.fst st.resolved ++ [L.req] := by
      rw [h2]
      simp [currentIds, resolvedIds, hL]
    have hs : st.submitted = st.written ++ List.map Prod.fst st.queue := by
      rw [h3]
      simp [queueIds]
    have ha : st.attributed =
        (st.resolved.map (fun p => p.2.map (fun e => (p.1, e)))).flatten ++
          L.result.map (fun e => (L.req, e)) := by
      rw [h4]
      simp [resolvedBlocks, currentBlock, hL]
    have hmap : (linesOf data).map (fun s => (L.req, parseL s)) =
        ((linesOf data).map parseL).map (fun e => (L.req, e)) := by
      simp
    by_cases hle : L.numTokens - sumCounts (linesOf data) ≤ 0
    · rw [onData_complete st L data hL (hOk L hL) hle]
      unfold completeSt dispatchNext
      dsimp only
      rcases hq : st.queue with _ | ⟨⟨qid, qb⟩, rest⟩
      · refine ⟨by simp, ?_, ?_, ?_, fun _ => rfl⟩
        · simp [resolvedIds, currentIds, hw]
        · simp [queueIds, hs, hq]
        · simp [resolvedBlocks, currentBlock, ha, hmap, List.append_assoc]
      · refine ⟨by simp, ?_, ?_, ?_, by simp⟩
        · simp [resolvedIds, currentIds, hw, List.append_assoc]
        · simp [queueIds, hs, hq, List.append_assoc]
        · simp [resolvedBlocks, currentBlock, ha, hmap, List.append_assoc]
    · rw [onData_incomplete st L data hL (hOk L hL) hle]
      refine ⟨by simpa [hL] using h1, ?_, ?_, ?_, by simp⟩
      · simp [resolvedIds, currentIds, hw]
      · simp [queueIds, hs]
      · simp [resolvedBlocks, currentBlock, ha, hmap, List.append_assoc]

theorem reachable_inv (st : SeqState) (h : Reachable st) : SeqInv st := by
  induction h with
  | init => exact seqInv_init
  | submit id budget _ _ ih => exact seqInv_submit _ id budget ih
  | chunk data _ hOk ih => exact seqInv_chunk _ data ih hOk

/-! ## Claims about the sequencer -/

/-- C2: at most one request is in flight against the worker at any instant.
In every state reachable under the worker model, the stdin write log is
exactly the resolved requests followed by the (at most one) in-flight
request — so at most one request has been written without having been
completed — the busy flag tracks listener attachment, and while the flag is
set a new submission only enqueues (no write to the worker, the queue grows
at the tail). -/
theorem single_request_in_flight (st : SeqState) (h : Reachable st) :
    st.written = resolvedIds st ++ currentIds st ∧
    (currentIds st).length ≤ 1 ∧
    st.isBusy = st.listener.isSome ∧
    (st.isBusy = true → ∀ id budget,
      submitStep st id budget =
        { st with queue := st.queue ++ [(id, budget)],
                  submitted := st.submitted ++ [id] }) := by
  obtain ⟨h1, h2, h3, h4, h5⟩ := reachable_inv st h
  refine ⟨h2, ?_, h1, ?_⟩
  · rcases hO : st.listener with _ | L <;> simp [currentIds, hO]
  · intro hb id budget
    unfold submitStep
    rw [if_pos hb]

theorem single_request_in_flight_witness :
    (runTrace [.submit 0 2, .submit 1 3]).written =
        resolvedIds (runTrace [.submit 0 2, .submit 1 3]) ++
          currentIds (runTrace [.submit 0 2, .submit 1 3]) ∧
    (currentIds (runTrace [.submit 0 2, .submit 1 3])).length ≤ 1 ∧
    (runTrace [.submit 0 2, .submit 1 3]).isBusy =
      (runTrace [.submit 0 2, .submit 1 3]).listener.isSome ∧
    ((runTrace [.submit 0 2, .submit 1 3]).isBusy = true → ∀ id budget,
      submitStep (runTrace [.submit 0 2, .submit 1 3]) id budget =
        { runTrace [.submit 0 2, .submit 1 3] with
            queue := (runTrace [.submit 0 2, .submit 1 3]).queue ++ [(id, budget)],
            submitted := (runTrace [.submit 0 2, .submit 1 3]).submitted ++ [id] }) :=
  single_request_in_flight (runTrace [.submit 0 2, .submit 1 3])
    (Reachable.submit 1 3 (Reachable.submit 0 2 Reachable.init (by decide)) (by decide))

/-- C4: requests complete in admission order.  In every reachable state the
submission log is exactly: resolved requests (in resolution order), then the
in-flight request, then the queued requests (in queue order) — so
completions follow submission order and a request is only written to the
worker after every earlier submission has been resolved.  Moreover the line
attribution log is exactly the per-request result blocks in that same
order: every output line processed is attributed to exactly one request. -/
theorem fifo_completion_order (st : SeqState) (h : Reachable st) :
    st.submitted = (resolvedIds st ++ currentIds st) ++ queueIds st ∧
    st.written = resolvedIds st ++ currentIds st ∧
    st.attributed = resolvedBlocks st ++ currentBlock st := by
  obtain ⟨h1, h2, h3, h4, h5⟩ := reachable_inv st h
  exact ⟨by rw [h3, h2], h2, h4⟩

theorem fifo_completion_order_witness :
    (runTrace [.submit 3 1, .submit 4 1]).submitted =
        (resolvedIds (runTrace [.submit 3 1, .submit 4 1]) ++
          currentIds (runTrace [.submit 3 1, .submit 4 1])) ++
          queueIds (runTrace [.submit 3 1, .submit 4 1]) ∧
    (runTrace [.submit 3 1, .submit 4 1]).written =
        resolvedIds (runTrace [.submit 3 1, .submit 4 1]) ++
          currentIds (runTrace [.submit 3 1, .submit 4 1]) ∧
    (runTrace [.submit 3 1, .submit 4 1]).attributed =
        resolvedBlocks (runTrace [.submit 3 1, .submit 4 1]) ++
          currentBlock (runTrace [.submit 3 1, .submit 4 1]) :=
  fifo_completion_order (runTrace [.submit 3 1, .submit 4 1])
    (Reachable.submit 4 1 (Reachable.submit 3 1 Reachable.init (by decide)) (by decide))

/-- C5: an in-flight request completes exactly when the cumulative tagged
token count of its output reaches the budget.  `L.numTokens` is the budget
still unconsumed by earlier chunks, so the cumulative count of all received
lines reaches the initial budget `N` exactly when this chunk's total reaches
`L.numTokens`.  Below budget, the listener stays attached with the updated
remainder and accumulated parses; at or above budget the listener is
detached, the busy flag cleared, the resolve call recorded with the per-line
parses in emission order, and — when the wait queue is non-empty — the next
queued request is dispatched (busy set again, its listener attached, its
text written to the worker). -/
theorem completion_on_token_budget (st : SeqState) (L : Listener) (data : List Char)
    (hL : st.listener = some L)
    (hOk : ChunkOk L.numTokens (linesOf data)) :
    (¬ L.numTokens ≤ sumCounts (linesOf data) →
      onData st data =
        { st with
            attributed := st.attributed ++ (linesOf data).map (fun s => (L.req, parseL s)),
            listener := some ⟨L.req, L.numTokens - sumCounts (linesOf data),
              L.result ++ (linesOf data).map parseL⟩ }) ∧
    (L.numTokens ≤ sumCounts (linesOf data) →
      (st.queue = [] →
        onData st data =
          { st with
              attributed := st.attributed ++ (linesOf data).map (fun s => (L.req, parseL s)),
              listener := none, isBusy := false,
              resolved := st.resolved ++ [(L.req, L.result ++ (linesOf data).map parseL)] }) ∧
      (∀ nid nb rest, st.queue = (nid, nb) :: rest →
        onData st data =
          { st with
              attributed := st.attributed ++ (linesOf data).map (fun s => (L.req, parseL s)),
              queue := rest, isBusy := true,
              listener := some ⟨nid, (nb : Int), []⟩,
              written := st.written ++ [nid],
              resolved := st.resolved ++ [(L.req, L.result ++ (linesOf data).map parseL)] })) := by
  constructor
  · intro hgt
    exact onData_incomplete st L data hL hOk (by rw [sub_nonpos]; exact hgt)
  · intro hle
    rw [onData_complete st L data hL hOk (sub_nonpos.mpr hle)]
    unfold completeSt dispatchNext
    dsimp only
    constructor
    · intro hq
      rw [hq]
    · intro nid nb rest hq
      rw [hq]

theorem completion_on_token_budget_witness :
    onData (runTrace [.submit 0 1, .submit 1 2]) "aa".toList =
      { runTrace [.submit 0 1, .submit 1 2] with
          attributed := (runTrace [.submit 0 1, .submit 1 2]).attributed ++
            (linesOf "aa".toList).map (fun s => ((0 : Nat), parseL s)),
          queue := [], isBusy := true,
          listener := some ⟨1, ((2 : Nat) : Int), []⟩,
          written := (runTrace [.submit 0 1, .submit 1 2]).written ++ [1],
          resolved := (runTrace [.submit 0 1, .submit 1 2]).resolved ++
            [(0, ([] : List EntityMap) ++ (linesOf "aa".toList).map parseL)] } := by
  have h := completion_on_token_budget (runTrace [.submit 0 1, .submit 1 2])
      ⟨0, ((1 : Nat) : Int), []⟩ "aa".toList (by decide)
      (by
        intro i hi
        have hlen : (linesOf "aa".toList).length = 1 := by decide
        rw [hlen] at hi
        exact absurd hi (by omega))
  exact (h.2 (by decide)).2 1 2 [] (by decide)

/-- C3 (code bug): when a single stdout chunk carries one line more than
needed to exhaust the in-flight request's budget, the completion/dequeue
step re-executes for the extra line: `removeAllListeners` cannot stop the
already-running `forEach`, so with three admitted requests of budget 1 and
the chunk `"aa\nbb"`, request 0's resolve is called twice, requests 1 and 2
are both dispatched inside the same chunk (so two requests are written
without having completed), and request 1's freshly attached listener is
destroyed by the second `removeAllListeners` — the surviving listener is
request 2's. -/
theorem completion_step_reexecuted :
    (runTrace [.submit 0 1, .submit 1 1, .submit 2 1,
        .chunk "aa\nbb".toList]).resolved.map Prod.fst = [0, 0] ∧
    (runTrace [.submit 0 1, .submit 1 1, .submit 2 1,
        .chunk "aa\nbb".toList]).written = [0, 1, 2] ∧
    (runTrace [.submit 0 1, .submit 1 1, .submit 2 1,
        .chunk "aa\nbb".toList]).listener = some ⟨2, 1, []⟩ ∧
    (runTrace [.submit 0 1, .submit 1 1, .submit 2 1,
        .chunk "aa\nbb".toList]).isBusy = true := by decide

/-! ## Claims about the parser -/

/-- C6: the spec's parser round-trip example.  The line ends in a single
`LOCATION` token, so the end-of-line flush stores a one-element buffer under
a fresh key and coincides with the joined/appended behavior; insertion order
is PERSON before LOCATION. -/
theorem parse_round_trip_example :
    parse "Barack/PERSON Obama/PERSON visited/O Paris/LOCATION" =
      [(some "PERSON", ["Barack Obama"]), (some "LOCATION", ["Paris"])] := by decide

/-- C1 (code bug): the end-of-line flush is `entities.set(prevEntity,
entityBuffer)`, not a join-and-append like the mid-line flushes.  On the
spec's merge example the buffered surfaces are stored as three separate
strings instead of the single mention "New York Fed", and on a line whose
earlier mentions share the final tag the `set` overwrites them (the
"Paris" mention is lost). -/
theorem parse_final_flush_bug :
    parse "New/ORGANIZATION York/ORGANIZATION Fed/ORGANIZATION" =
        [(some "ORGANIZATION", ["New", "York", "Fed"])] ∧
    parse "New/ORGANIZATION York/ORGANIZATION Fed/ORGANIZATION" ≠
        [(some "ORGANIZATION", ["New York Fed"])] ∧
    parse "Paris/LOCATION visited/O Rome/LOCATION" =
        [(some "LOCATION", ["Rome"])] := by decide

/-- C9: parsing the same line twice yields structurally equal entity maps
(same keys in the same insertion order, equal mention lists), and the first
call leaves no hidden state behind that could affect the second. -/
theorem parse_deterministic (st : SeqState) (line : String) :
    (parseCall st line).1 = st ∧
    (parseCall ((parseCall st line).1) line).2 = (parseCall st line).2 :=
  ⟨rfl, rfl⟩

theorem splitChars_no_sep (p : Char → Bool) (cs : List Char) :
    ∀ f ∈ splitChars p cs, ∀ c ∈ f, p c = false := by
  induction cs with
  | nil =>
    intro f hf c hc
    simp only [splitChars, List.mem_singleton] at hf
    subst hf
    simp at hc
  | cons a cs ih =>
    intro f hf c hc
    rcases hs : splitChars p cs with _ | ⟨g, rest⟩
    · exact absurd hs (splitChars_ne_nil p cs)
    · simp only [splitChars, hs] at hf
      by_cases hp : p a = true
      · rw [if_pos hp] at hf
        rw [List.mem_cons] at hf
        rcases hf with rfl | hf
        · simp at hc
        · exact ih f (hs ▸ hf) c hc
      · rw [if_neg hp] at hf
        have hpa : p a = false := by simpa using hp
        rw [List.mem_cons] at hf
        rcases hf with rfl | hf
        · rw [List.mem_cons] at hc
          rcases hc with rfl | hc
          · exact hpa
          · exact ih g (hs ▸ List.mem_cons_self g rest) c hc
        · exact ih f (hs ▸ List.mem_cons_of_mem g hf) c hc

theorem headD_mem {α : Type} (l : List α) (d : α) (h : l ≠ []) : l.headD d ∈ l := by
  cases l with
  | nil => exact absurd rfl h
  | cons a l => simp

theorem splitChars_eq_single (p : Char → Bool) (v : List Char)
    (h : ∀ c ∈ v, p c = false) : splitChars p v = [v] := by
  induction v with
  | nil => rfl
  | cons a v ih =>
    have ha : p a = false := h a (List.mem_cons_self a v)
    have ihv : splitChars p v = [v] := ih (fun c hc => h c (List.mem_cons_of_mem a hc))
    simp [splitChars, ihv, ha]

theorem unescapeTok_no_slash (tok : List Char) :
    ∀ c ∈ unescapeTok tok, ((c = '/') : Bool) = false := by
  have h0 : ∀ c ∈ surfaceOf tok, ((c = '/') : Bool) = false :=
    splitChars_no_sep (fun c => c = '/') tok _
      (headD_mem _ _ (splitChars_ne_nil _ _))
  intro c hc
  simp only [unescapeTok] at hc
  repeat' split at hc
  all_goals revert c
  all_goals first
    | decide
    | exact h0

theorem surfaceOf_unescapeTok (tok : List Char) :
    surfaceOf (unescapeTok tok) = unescapeTok tok := by
  unfold surfaceOf
  rw [splitChars_eq_single _ _ (unescapeTok_no_slash tok)]
  rfl

/-- C7 (amended): the tagged-mode count undoes the worker's bracket/quote
escaping before counting, and equals the number of space-separated tokens
whose unescaped, whitespace-trimmed surface is longer than one character;
in particular the count for `"Spain/LOCATION ./O"` is 1. -/
theorem tagged_count_unescapes_trimmed :
    (∀ text : List Char, getTokenCountTagged text = trimmedTaggedCount text) ∧
    getTokenCountTagged "Spain/LOCATION ./O".toList = 1 := by
  constructor
  · intro text
    simp only [getTokenCountTagged, trimmedTaggedCount]
    rw [List.filter_map, List.length_map]
    congr 1
    apply List.filter_congr
    intro tok _
    simp only [Function.comp_apply, surfaceOf_unescapeTok]
  · decide

/-- C7 (counterexample): the claim omits the whitespace trimming that
`getTokenCount` applies before measuring the surface.  The single token of
the line `"x\t/O"` has unescaped surface `x⟨tab⟩` of length 2, so the
claimed count is 1, but the code trims the tab away, measures length 1 and
counts 0. -/
theorem tagged_count_counterexample :
    getTokenCountTagged "x\t/O".toList = 0 ∧
    claimedTaggedCount "x\t/O".toList = 1 := by decide

theorem splitChars_append_free (p : Char → Bool) (t u : List Char)
    (h : ∀ c ∈ t, p c = false) :
    splitChars p (t ++ u) =
      (t ++ (splitChars p u).headD []) :: (splitChars p u).tail := by
  induction t with
  | nil =>
    rcases hs : splitChars p u with _ | ⟨f, rest⟩
    · exact absurd hs (splitChars_ne_nil p u)
    · simp [hs]
  | cons a t ih =>
    have ha : p a = false := h a (List.mem_cons_self a t)
    have iht := ih (fun c hc => h c (List.mem_cons_of_mem a hc))
    simp only [List.cons_append, splitChars, List.append_eq]
    rw [iht]
    simp [ha]

theorem splitChars_joinTokens (ts : List (List Char)) (hne : ts ≠ [])
    (h : ∀ t ∈ ts, ∀ c ∈ t, jsWs c = false) :
    splitChars jsWs (joinTokens ts) = ts := by
  induction ts with
  | nil => exact absurd rfl hne
  | cons t ts ih =>
    rcases eq_or_ne ts [] with h2 | h2
    · subst h2
      exact splitChars_eq_single jsWs t (h t (List.mem_cons_self _ _))
    · have hjt : joinTokens (t :: ts) = t ++ ' ' :: joinTokens ts := by
        cases ts with
        | nil => exact absurd rfl h2
        | cons a b => rfl
      have hsp : splitChars jsWs (' ' :: joinTokens ts) =
          [] :: splitChars jsWs (joinTokens ts) := by
        rcases hs : splitChars jsWs (joinTokens ts) with _ | ⟨f, rest⟩
        · exact absurd hs (splitChars_ne_nil _ _)
        · simp only [splitChars, hs]
          rw [if_pos (by simp [jsWs])]
      rw [hjt,
        splitChars_append_free jsWs t (' ' :: joinTokens ts)
          (fun c hc => h t (List.mem_cons_self _ _) c hc),
        hsp]
      simp only [List.headD_cons, List.tail_cons, List.append_nil]
      rw [ih h2 (fun t' ht' => h t' (List.mem_cons_of_mem _ ht'))]

theorem filterMap_filter_isSome {α β : Type} (f : α → Option β) (l : List α) :
    (l.filter (fun a => (f a).isSome)).filterMap f = l.filterMap f := by
  induction l with
  | nil => rfl
  | cons a l ih =>
    rcases hf : f a with _ | b
    · simp [List.filter_cons, List.filterMap_cons, hf, ih]
    · simp [List.filter_cons, List.filterMap_cons, hf, ih]

theorem execTok_nonempty {t : List Char} {tok : Token} (h : execTok t = some tok) :
    t ≠ [] := by
  intro h0
  subst h0
  simp [execTok, lastSlashSplit] at h

theorem tokensOf_joinTokens_filter (cs : List Char) :
    tokensOf (joinTokens
      ((splitChars jsWs cs).filter (fun t => (execTok t).isSome))) = tokensOf cs := by
  have hfree : ∀ t ∈ (splitChars jsWs cs).filter (fun t => (execTok t).isSome),
      ∀ c ∈ t, jsWs c = false := by
    intro t ht c hc
    exact splitChars_no_sep jsWs cs t (List.mem_of_mem_filter ht) c hc
  rcases eq_or_ne ((splitChars jsWs cs).filter (fun t => (execTok t).isSome)) [] with h0 | h0
  · rw [h0]
    have h1 : tokensOf cs =
        ((splitChars jsWs cs).filter (fun t => (execTok t).isSome)).filterMap execTok := by
      rw [filterMap_filter_isSome]
      rfl
    rw [h1, h0]
    rfl
  · unfold tokensOf
    rw [splitChars_joinTokens _ h0 hfree, filterMap_filter_isSome]

/-- C8: a whitespace-separated token that does not match `(.+)/([A-Z]+)` is
silently discarded: parsing a line yields the same entity map as parsing the
line with all non-matching tokens removed (and parsing is total — no error
path exists). -/
theorem parse_discards_nonmatching (line : String) :
    parse line = parse (removeNonMatching line) := by
  have h : tokensOf (removeNonMatching line).toList = tokensOf line.toList :=
    tokensOf_joinTokens_filter line.toList
  unfold parse parseL
  rw [h]

theorem mapKeys_cons (p : Option String × List String) (m : EntityMap) :
    mapKeys (p :: m) = p.1 :: mapKeys m := rfl

theorem mapKeys_mapSet (m : EntityMap) (k : Option String) (v : List String) :
    ∀ k' ∈ mapKeys (mapSet m k v), k' ∈ mapKeys m ∨ k' = k := by
  induction m with
  | nil =>
    intro k' h
    right
    simpa [mapSet, mapKeys] using h
  | cons p rest ih =>
    intro k' h
    by_cases hp : p.1 = k
    · rw [show mapSet (p :: rest) k v = (k, v) :: rest from by simp [mapSet, hp],
        mapKeys_cons, List.mem_cons] at h
      rcases h with h | h
      · right
        exact h
      · left
        rw [mapKeys_cons, List.mem_cons]
        right
        exact h
    · rw [show mapSet (p :: rest) k v = p :: mapSet rest k v from by simp [mapSet, hp],
        mapKeys_cons, List.mem_cons] at h
      rcases h with h | h
      · left
        rw [mapKeys_cons, List.mem_cons]
        left
        exact h
      · rcases ih k' h with h1 | h1
        · left
          rw [mapKeys_cons, List.mem_cons]
          right
          exact h1
        · right
          exact h1

theorem mapKeys_saveEntity (m : EntityMap) (k : Option String) (x : String) :
    ∀ k' ∈ mapKeys (saveEntity m k x), k' ∈ mapKeys m ∨ k' = k := by
  intro k' h
  simp only [saveEntity] at h
  rcases mapKeys_mapSet _ _ _ k' h with h1 | h1
  · by_cases hc : mapGet m k = none
    · rw [if_pos hc] at h1
      exact mapKeys_mapSet _ _ _ k' h1
    · rw [if_neg hc] at h1
      exact Or.inl h1
  · exact Or.inr h1

theorem parseLoop_keys (tags : List String) :
    ∀ toks st, (∀ tok ∈ toks, tok.t ∈ tags) →
      KeysOk tags st.entities → BufOk tags st →
      KeysOk tags (parseLoop toks st).entities ∧ BufOk tags (parseLoop toks st) := by
  intro toks
  induction toks with
  | nil =>
    intro st _ h1 h2
    exact ⟨h1, h2⟩
  | cons tok rest ih =>
    intro st htags h1 h2
    have htok : tok.t ∈ tags := htags tok (List.mem_cons_self _ _)
    have hrest : ∀ t ∈ rest, t.t ∈ tags := fun t ht => htags t (List.mem_cons_of_mem _ ht)
    have hflushKeys : st.entityBuffer ≠ [] →
        KeysOk tags (saveEntity st.entities st.prevEntity (joinSp st.entityBuffer)) := by
      intro hbuf k hk
      rcases mapKeys_saveEntity _ _ _ k hk with hk1 | hk1
      · exact h1 k hk1
      · obtain ⟨t, ht1, ht2, ht3⟩ := h2 hbuf
        exact ⟨t, by rw [hk1, ht1], ht2, ht3⟩
    simp only [parseLoop]
    by_cases hO : tok.t ≠ "O"
    · rw [if_pos hO]
      by_cases hprev : some tok.t ≠ st.prevEntity
      · rw [if_pos hprev]
        by_cases hbuf : st.entityBuffer ≠ []
        · rw [if_pos hbuf]
          refine ih _ hrest ?_ ?_
          · exact hflushKeys hbuf
          · intro _
            exact ⟨tok.t, rfl, hO, htok⟩
        · rw [if_neg hbuf]
          refine ih _ hrest h1 ?_
          intro _
          exact ⟨tok.t, rfl, hO, htok⟩
      · rw [if_neg hprev]
        refine ih _ hrest h1 ?_
        intro _
        exact ⟨tok.t, rfl, hO, htok⟩
    · rw [if_neg hO]
      by_cases hbuf : st.entityBuffer ≠ []
      · rw [if_pos hbuf]
        refine ih _ hrest (hflushKeys hbuf) ?_
        intro hb
        exact absurd rfl hb
      · rw [if_neg hbuf]
        refine ih _ hrest h1 ?_
        intro hb
        exact absurd (by simpa using hbuf) hb

/-- C10: every key of a parsed entity map is `some t` for a non-"O" tag `t`
of some matched token of the line — never the sentinel "O" and never the
JavaScript `undefined` that `prevEntity` starts as. -/
theorem parse_keys_are_tags (line : String) :
    ∀ k ∈ mapKeys (parse line), ∃ t, k = some t ∧ t ≠ "O" ∧
      ∃ tok ∈ tokensOf line.toList, tok.t = t := by
  intro k hk
  have h := parseLoop_keys ((tokensOf line.toList).map Token.t) (tokensOf line.toList)
      ⟨[], none, []⟩ (fun tok ht => List.mem_map_of_mem _ ht)
      (by intro k' hk'; simp [mapKeys] at hk')
      (by intro h'; exact absurd rfl h')
  unfold parse parseL at hk
  by_cases hbuf : (parseLoop (tokensOf line.toList) ⟨[], none, []⟩).entityBuffer ≠ []
  · rw [if_pos hbuf] at hk
    have hgood : ∀ t, t ∈ (tokensOf line.toList).map Token.t →
        ∃ tok ∈ tokensOf line.toList, tok.t = t := by
      intro t ht
      obtain ⟨tok, htok, rfl⟩ := List.mem_map.mp ht
      exact ⟨tok, htok, rfl⟩
    rcases mapKeys_mapSet _ _ _ k hk with hk1 | hk1
    · obtain ⟨t, ht1, ht2, ht3⟩ := h.1 k hk1
      exact ⟨t, ht1, ht2, hgood t ht3⟩
    · obtain ⟨t, ht1, ht2, ht3⟩ := h.2 hbuf
      obtain ⟨tok, htok, rfl⟩ := List.mem_map.mp ht3
      exact ⟨tok.t, by rw [hk1, ht1], ht2, ⟨tok, htok, rfl⟩⟩
  · rw [if_neg hbuf] at hk
    obtain ⟨t, ht1, ht2, ht3⟩ := h.1 k hk
    obtain ⟨tok, htok, rfl⟩ := List.mem_map.mp ht3
    exact ⟨tok.t, ht1, ht2, ⟨tok, htok, rfl⟩⟩

theorem parse_keys_are_tags_witness :
    ∃ t, some "LOCATION" = some t ∧ t ≠ "O" ∧
      ∃ tok ∈ tokensOf "Paris/LOCATION".toList, tok.t = t :=
  parse_keys_are_tags "Paris/LOCATION" (some "LOCATION") (by decide)
